import Mathlib

/-!
Verification of the Habla Español core: the SM-2 spaced-repetition
scheduler (`SpacedRepetition`) and the fuzzy answer matcher
(`FuzzyMatcher`), shallowly embedded from the JavaScript sources.

Numbers: timestamps and day-intervals are `ℤ` (epoch milliseconds /
days), the ease factor and similarity scores are `ℚ`, `Math.round`
is Mathlib's `round` (both are `⌊x + 1/2⌋`).
-/

namespace SpacedRepetition

/-- Per-phrase progress record, as produced by `createInitialProgress`
and updated by `calculateNextReview`. -/
structure ProgressRecord where
  phraseId : ℤ
  easeFactor : ℚ
  interval : ℤ
  repetitions : ℕ
  nextReview : ℤ
  lastReview : Option ℤ
  totalReviews : ℕ
  correctReviews : ℕ
deriving DecidableEq, Repr

/-- A phrase from the static phrase list: the core only needs its id
(display fields are opaque to the scheduler). -/
structure Phrase where
  id : ℤ
  text : List Char
deriving DecidableEq, Repr

/-- `createInitialProgress(phraseId)`: the default record for a phrase
that has never been reviewed. -/
def createInitialProgress (phraseId : ℤ) : ProgressRecord :=
  { phraseId := phraseId
    easeFactor := 2.5
    interval := 0
    repetitions := 0
    nextReview := 0
    lastReview := none
    totalReviews := 0
    correctReviews := 0 }

/-- `calculateNextReview(progress, quality)` with the wall-clock reading
`Date.now()` made an explicit `now` parameter.  The success branch
computes the new interval from the ease factor as it stood before this
review's ease-factor update, exactly as the source does (the ease factor
is reassigned only after the interval). -/
def calculateNextReview (now : ℤ) (progress : ProgressRecord) (quality : ℤ) :
    ProgressRecord :=
  let efChange : ℚ := 0.1 - (5 - (quality : ℚ)) * (0.08 + (5 - (quality : ℚ)) * 0.02)
  let easeFactor : ℚ := max 1.3 (progress.easeFactor + efChange)
  if 3 ≤ quality then
    let interval : ℤ :=
      if progress.repetitions = 0 then 1
      else if progress.repetitions = 1 then 6
      else round ((progress.interval : ℚ) * progress.easeFactor)
    { progress with
      lastReview := some now
      totalReviews := progress.totalReviews + 1
      correctReviews := progress.correctReviews + 1
      interval := interval
      repetitions := progress.repetitions + 1
      easeFactor := easeFactor
      nextReview := now + interval * (24 * 60 * 60 * 1000) }
  else
    { progress with
      lastReview := some now
      totalReviews := progress.totalReviews + 1
      repetitions := 0
      interval := 1
      easeFactor := easeFactor
      nextReview := now + 1 * (24 * 60 * 60 * 1000) }

/-- The due bucket of `getNextPhrase`: records already reviewed
(`repetitions > 0`) whose `nextReview` has passed. -/
def dueRecords (allProgress : List ProgressRecord) (now : ℤ) : List ProgressRecord :=
  allProgress.filter fun p => decide (p.nextReview ≤ now ∧ 0 < p.repetitions)

/-- The accumulator step of the source's `reduce` that finds the record
with the globally smallest `nextReview` (strict `<`, so the first
encountered wins ties). -/
def minStep (mn p : ProgressRecord) : ProgressRecord :=
  if p.nextReview < mn.nextReview then p else mn

/-- `getNextPhrase()`, with the store snapshot `allProgress` and the
wall clock `now` passed in explicitly.  Mirrors the source: due bucket
sorted by due time, then first never-reviewed phrase in list order, then
the record due soonest, then `phrases[0] || null`. -/
def getNextPhrase (phrases : List Phrase) (allProgress : List ProgressRecord)
    (now : ℤ) : Option Phrase :=
  let sortedDue := (dueRecords allProgress now).mergeSort
    fun a b => decide (a.nextReview ≤ b.nextReview)
  match sortedDue with
  | d :: _ => phrases.find? fun ph => decide (ph.id = d.phraseId)
  | [] =>
    let reviewedIds := allProgress.map ProgressRecord.phraseId
    let newPhrases := phrases.filter fun ph => decide (ph.id ∉ reviewedIds)
    match newPhrases with
    | np :: _ => some np
    | [] =>
      match allProgress with
      | p0 :: rest =>
        let nextDue := rest.foldl minStep p0
        phrases.find? fun ph => decide (ph.id = nextDue.phraseId)
      | [] => phrases.head?

/-- `recordReview(phraseId, correct, skipped)`: the store lookup result
is passed in as `stored` and the persisted-and-returned record is the
function's value. -/
def recordReview (now : ℤ) (phraseId : ℤ) (stored : Option ProgressRecord)
    (correct : Bool) (skipped : Bool) : ProgressRecord :=
  let progress := match stored with
    | some p => p
    | none => createInitialProgress phraseId
  let quality : ℤ := if skipped then 0 else if correct then 4 else 1
  calculateNextReview now progress quality

/-- A two-phrase library for exercising `getNextPhrase`. -/
def samplePhrases : List Phrase := [{ id := 1, text := [] }, { id := 2, text := [] }]

/-- A snapshot where phrase 1 was reviewed once and is past due. -/
def sampleProgress : List ProgressRecord :=
  [{ phraseId := 1, easeFactor := 2.5, interval := 1, repetitions := 1,
     nextReview := 50, lastReview := some 0, totalReviews := 1,
     correctReviews := 1 }]

end SpacedRepetition

namespace FuzzyMatcher

/-- The space character, the single replacement used when collapsing
whitespace runs. -/
def spaceChar : Char := Char.ofNat 32

/-- Per-character model of `String.prototype.toLowerCase` restricted to
the ASCII and Latin-1 letters used by the app's two alphabets:
`A`–`Z` and `À`–`Þ` (except `×`) map to the code point 32 higher,
everything else is unchanged. -/
def jsToLower (c : Char) : Char :=
  if 65 ≤ c.toNat ∧ c.toNat ≤ 90 then Char.ofNat (c.toNat + 32)
  else if 192 ≤ c.toNat ∧ c.toNat ≤ 222 ∧ c.toNat ≠ 215 then Char.ofNat (c.toNat + 32)
  else c

/-- The regex whitespace class `\s` (also the set trimmed by
`String.prototype.trim`). -/
def isWS (c : Char) : Bool :=
  decide ((9 ≤ c.toNat ∧ c.toNat ≤ 13) ∨ c.toNat = 32 ∨ c.toNat = 160 ∨
    c.toNat = 5760 ∨ (8192 ≤ c.toNat ∧ c.toNat ≤ 8202) ∨ c.toNat = 8232 ∨
    c.toNat = 8233 ∨ c.toNat = 8239 ∨ c.toNat = 8287 ∨ c.toNat = 12288 ∨
    c.toNat = 65279)

/-- The fixed punctuation class stripped by `normalize`:
`¿ ¡ ? ! . , ; : ' " ( ) [ ] \x7b \x7d … — – -` by code point. -/
def isPunct (c : Char) : Bool :=
  decide (c.toNat ∈ [191, 161, 63, 33, 46, 44, 59, 58, 39, 34, 40, 41,
    91, 93, 123, 125, 8230, 8212, 8211, 45])

/-- `String.prototype.trim`: drop whitespace from both ends. -/
def trim (s : List Char) : List Char :=
  ((s.dropWhile isWS).reverse.dropWhile isWS).reverse

/-- `.replace(/\s+/g, ' ')`: each maximal whitespace run becomes one
space.  The boolean argument records whether the previous character was
part of a whitespace run. -/
def collapseWS : Bool → List Char → List Char
  | _, [] => []
  | prevWS, c :: cs =>
    if isWS c then
      if prevWS then collapseWS true cs else spaceChar :: collapseWS true cs
    else c :: collapseWS false cs

/-- `normalize(str)`: lowercase, trim, strip punctuation (with no
replacement character), collapse whitespace runs to a single space,
trim again.  A null/undefined input is the empty string, which every
stage preserves. -/
def normalize (s : List Char) : List Char :=
  trim (collapseWS false (List.filter (fun c => !(isPunct c)) (trim (s.map jsToLower))))

/-- NFD decomposition table, restricted to the Latin-1 accented letters
of the alphabets in use: code point ↦ (base letter, combining mark). -/
def nfdDecomp (n : ℕ) : Option (ℕ × ℕ) :=
  match n with
  | 192 => some (65, 768) | 193 => some (65, 769) | 194 => some (65, 770)
  | 195 => some (65, 771) | 196 => some (65, 776) | 197 => some (65, 778)
  | 199 => some (67, 807)
  | 200 => some (69, 768) | 201 => some (69, 769) | 202 => some (69, 770)
  | 203 => some (69, 776)
  | 204 => some (73, 768) | 205 => some (73, 769) | 206 => some (73, 770)
  | 207 => some (73, 776)
  | 209 => some (78, 771)
  | 210 => some (79, 768) | 211 => some (79, 769) | 212 => some (79, 770)
  | 213 => some (79, 771) | 214 => some (79, 776)
  | 217 => some (85, 768) | 218 => some (85, 769) | 219 => some (85, 770)
  | 220 => some (85, 776)
  | 221 => some (89, 769)
  | 224 => some (97, 768) | 225 => some (97, 769) | 226 => some (97, 770)
  | 227 => some (97, 771) | 228 => some (97, 776) | 229 => some (97, 778)
  | 231 => some (99, 807)
  | 232 => some (101, 768) | 233 => some (101, 769) | 234 => some (101, 770)
  | 235 => some (101, 776)
  | 236 => some (105, 768) | 237 => some (105, 769) | 238 => some (105, 770)
  | 239 => some (105, 776)
  | 241 => some (110, 771)
  | 242 => some (111, 768) | 243 => some (111, 769) | 244 => some (111, 770)
  | 245 => some (111, 771) | 246 => some (111, 776)
  | 249 => some (117, 768) | 250 => some (117, 769) | 251 => some (117, 770)
  | 252 => some (117, 776)
  | 253 => some (121, 769) | 255 => some (121, 776)
  | _ => none

/-- `str.normalize('NFD')` modelled per character with `nfdDecomp`. -/
def nfdChar (c : Char) : List Char :=
  match nfdDecomp c.toNat with
  | some (b, m) => [Char.ofNat b, Char.ofNat m]
  | none => [c]

/-- `removeAccents(str)`: NFD-decompose, then strip the combining
diacritical marks `̀`–`ͯ`. -/
def removeAccents (s : List Char) : List Char :=
  (s.flatMap nfdChar).filter fun c => !(decide (768 ≤ c.toNat ∧ c.toNat ≤ 879))

/-- One row of the Levenshtein matrix from the previous one: walks the
characters of `a` with `left` the entry just written, `diag` the
previous row's entry one column back and `up :: prest` the rest of the
previous row. -/
def levRowAux (bc : Char) : List Char → ℕ → ℕ → List ℕ → List ℕ
  | [], _, _, _ => []
  | _ :: _, _, _, [] => []
  | ac :: as, left, diag, up :: prest =>
    let cur := if bc = ac then diag else Nat.min (Nat.min diag left) up + 1
    cur :: levRowAux bc as cur up prest

/-- Row `i` of the matrix (first entry `i = prev[0] + 1`). -/
def levRow (bc : Char) (a : List Char) (prev : List ℕ) : List ℕ :=
  match prev with
  | [] => []
  | p0 :: rest => (p0 + 1) :: levRowAux bc a (p0 + 1) p0 rest

/-- `levenshteinDistance(a, b)`: the classic dynamic program over a
`(|b|+1) × (|a|+1)` grid, row by row. -/
def levenshteinDistance (a b : List Char) : ℕ :=
  if a.length = 0 then b.length
  else if b.length = 0 then a.length
  else ((b.foldl (fun prev bc => levRow bc a prev)
    (List.range (a.length + 1))).getLast?).getD 0

/-- The options object of `match`, with its documented defaults. -/
structure MatchOptions where
  maxDistance : Option ℕ := none
  minSimilarity : ℚ := 0.85
  strictAccents : Bool := false

/-- The result object of `match` (`distance` is only present on the
path that computes it). -/
structure MatchResult where
  «matches» : Bool
  similarity : ℚ
  distance : Option ℕ
  exact : Bool
deriving DecidableEq

/-- Both sides of `match` are normalized, and accent-folded unless
`strictAccents` is set. -/
def processed (options : MatchOptions) (s : List Char) : List Char :=
  if options.strictAccents then normalize s else removeAccents (normalize s)

/-- `match(answer, expected, options)`: exact match after processing
short-circuits, an empty processed answer fails with similarity 0, and
otherwise the edit distance drives both the similarity ratio and the
auto allowed-distance policy (one edit per five expected characters). -/
def «match» (answer expected : List Char) (options : MatchOptions) : MatchResult :=
  let normalizedAnswer := processed options answer
  let normalizedExpected := processed options expected
  if normalizedAnswer = normalizedExpected then
    { «matches» := true, similarity := 1.0, distance := none, exact := true }
  else if normalizedAnswer.length = 0 then
    { «matches» := false, similarity := 0, distance := none, exact := false }
  else
    let distance := levenshteinDistance normalizedAnswer normalizedExpected
    let maxLen := max normalizedAnswer.length normalizedExpected.length
    let similarity : ℚ := 1 - (distance : ℚ) / (maxLen : ℚ)
    let allowedDistance := match options.maxDistance with
      | some d => d
      | none => normalizedExpected.length / 5
    { «matches» := decide (distance ≤ allowedDistance) &&
        decide (options.minSimilarity ≤ similarity),
      similarity := similarity
      distance := some distance
      exact := false }

end FuzzyMatcher

namespace SpacedRepetition

/-- The ease factor written by `calculateNextReview` is
`max 1.3 (old + efChange)` in both branches, so it is `≥ 1.3`. -/
theorem easeFactor_calculateNextReview (now : ℤ) (p : ProgressRecord) (q : ℤ) :
    (calculateNextReview now p q).easeFactor =
      max 1.3 (p.easeFactor + (0.1 - (5 - (q : ℚ)) * (0.08 + (5 - (q : ℚ)) * 0.02))) := by
  unfold calculateNextReview
  split <;> rfl

theorem easeFactor_floor (now : ℤ) (p : ProgressRecord) (q : ℤ) :
    (1.3 : ℚ) ≤ (calculateNextReview now p q).easeFactor := by
  rw [easeFactor_calculateNextReview]
  exact le_max_left _ _

/-- C1: on a successful review (quality ≥ 3) the interval follows the
SM-2 ladder 1 / 6 / round(interval·easeFactor) with the pre-update ease
factor, repetitions and correctReviews both increment; and from a fresh
record three consecutive quality-4 reviews yield intervals 1, 6, 15. -/
theorem c1_success_branch (now : ℤ) (p : ProgressRecord) (q : ℤ) (h : 3 ≤ q) :
    ((calculateNextReview now p q).interval =
        if p.repetitions = 0 then 1
        else if p.repetitions = 1 then 6
        else round ((p.interval : ℚ) * p.easeFactor)) ∧
    (calculateNextReview now p q).repetitions = p.repetitions + 1 ∧
    (calculateNextReview now p q).correctReviews = p.correctReviews + 1 ∧
    (∀ pid n1 n2 n3 : ℤ,
      (calculateNextReview n1 (createInitialProgress pid) 4).interval = 1 ∧
      (calculateNextReview n2
        (calculateNextReview n1 (createInitialProgress pid) 4) 4).interval = 6 ∧
      (calculateNextReview n3 (calculateNextReview n2
        (calculateNextReview n1 (createInitialProgress pid) 4) 4) 4).interval = 15) := by
  refine ⟨?_, ?_, ?_, ?_⟩
  · unfold calculateNextReview
    rw [if_pos h]
  · unfold calculateNextReview
    rw [if_pos h]
  · unfold calculateNextReview
    rw [if_pos h]
  · intro pid n1 n2 n3
    refine ⟨?_, ?_, ?_⟩ <;>
      norm_num [calculateNextReview, createInitialProgress, round_eq, max_def]

theorem c1_success_branch_witness :
    (3 : ℤ) ≤ 4 ∧
    (((calculateNextReview 0 (createInitialProgress 7) 4).interval =
        if (createInitialProgress 7).repetitions = 0 then 1
        else if (createInitialProgress 7).repetitions = 1 then 6
        else round (((createInitialProgress 7).interval : ℚ) *
          (createInitialProgress 7).easeFactor)) ∧
    (calculateNextReview 0 (createInitialProgress 7) 4).repetitions =
      (createInitialProgress 7).repetitions + 1 ∧
    (calculateNextReview 0 (createInitialProgress 7) 4).correctReviews =
      (createInitialProgress 7).correctReviews + 1 ∧
    (∀ pid n1 n2 n3 : ℤ,
      (calculateNextReview n1 (createInitialProgress pid) 4).interval = 1 ∧
      (calculateNextReview n2
        (calculateNextReview n1 (createInitialProgress pid) 4) 4).interval = 6 ∧
      (calculateNextReview n3 (calculateNextReview n2
        (calculateNextReview n1 (createInitialProgress pid) 4) 4) 4).interval = 15)) :=
  ⟨by norm_num, c1_success_branch 0 (createInitialProgress 7) 4 (by norm_num)⟩

/-- C2: on a failed review (quality < 3) repetitions reset to 0, the
interval resets to 1 and correctReviews is unchanged, whatever the
prior streak was. -/
theorem c2_failure_branch (now : ℤ) (p : ProgressRecord) (q : ℤ) (h : q < 3) :
    (calculateNextReview now p q).repetitions = 0 ∧
    (calculateNextReview now p q).interval = 1 ∧
    (calculateNextReview now p q).correctReviews = p.correctReviews := by
  unfold calculateNextReview
  rw [if_neg (by omega)]
  exact ⟨rfl, rfl, rfl⟩

theorem c2_failure_branch_witness :
    (1 : ℤ) < 3 ∧
    ((calculateNextReview 0 (createInitialProgress 7) 1).repetitions = 0 ∧
    (calculateNextReview 0 (createInitialProgress 7) 1).interval = 1 ∧
    (calculateNextReview 0 (createInitialProgress 7) 1).correctReviews =
      (createInitialProgress 7).correctReviews) :=
  ⟨by norm_num, c2_failure_branch 0 (createInitialProgress 7) 1 (by norm_num)⟩

/-- C3: both branches set
`easeFactor' = max(1.3, easeFactor + 0.1 - (5-q)(0.08 + (5-q)·0.02))`,
so `easeFactor ≥ 1.3` after every update; in particular 20 consecutive
quality-0 reviews from the initial record never drop it below 1.3. -/
theorem c3_ease_factor (now : ℤ) (p : ProgressRecord) (q : ℤ) :
    (calculateNextReview now p q).easeFactor =
      max 1.3 (p.easeFactor + (0.1 - (5 - (q : ℚ)) * (0.08 + (5 - (q : ℚ)) * 0.02))) ∧
    (1.3 : ℚ) ≤ (calculateNextReview now p q).easeFactor ∧
    (∀ k : ℕ, k ≤ 20 →
      (1.3 : ℚ) ≤ ((fun st => calculateNextReview 0 st 0)^[k]
        (createInitialProgress 0)).easeFactor) := by
  refine ⟨easeFactor_calculateNextReview now p q, easeFactor_floor now p q, ?_⟩
  intro k _
  cases k with
  | zero => simp [createInitialProgress]; norm_num
  | succ n =>
      rw [Function.iterate_succ_apply']
      exact easeFactor_floor _ _ _

theorem c3_ease_factor_witness :
    (20 : ℕ) ≤ 20 ∧
    (1.3 : ℚ) ≤ ((fun st => calculateNextReview 0 st 0)^[20]
      (createInitialProgress 0)).easeFactor :=
  ⟨by norm_num, (c3_ease_factor 0 (createInitialProgress 0) 0).2.2 20 (by norm_num)⟩

/-- C4: after every update, `lastReview` is the single wall-clock
reading `now` and `nextReview = lastReview + interval·86400000`
(a fixed 24-hour day in milliseconds). -/
theorem c4_next_review_offset (now : ℤ) (p : ProgressRecord) (q : ℤ) :
    (calculateNextReview now p q).lastReview = some now ∧
    (calculateNextReview now p q).nextReview =
      now + (calculateNextReview now p q).interval * 86400000 := by
  unfold calculateNextReview
  split <;> exact ⟨rfl, by norm_num⟩

/-- C5: `recordReview` falls back to the default initial record
(ease 2.5, interval 0, repetitions 0, nextReview 0, lastReview null,
zero counters) when the store has none, maps skipped→0, correct→4
(never 5), wrong→1, and returns `calculateNextReview` of that quality. -/
theorem c5_record_review (now pid : ℤ) (stored : Option ProgressRecord)
    (correct skipped : Bool) :
    recordReview now pid stored correct skipped =
      calculateNextReview now (stored.getD (createInitialProgress pid))
        (if skipped then 0 else if correct then 4 else 1) ∧
    createInitialProgress pid =
      { phraseId := pid, easeFactor := 2.5, interval := 0, repetitions := 0,
        nextReview := 0, lastReview := none, totalReviews := 0,
        correctReviews := 0 } ∧
    (if skipped then (0 : ℤ) else if correct then 4 else 1) ≠ 5 := by
  refine ⟨?_, rfl, ?_⟩
  · cases stored <;> rfl
  · cases skipped <;> cases correct <;> simp

/-- C10 counterexample: the claim quantifies over every progress record,
but on a record with `repetitions = 2` and `interval = 0` a quality-4
review returns `interval = round(0 · 2.5) = 0 < 1` and
`nextReview = now + 0`, not strictly after `now`. -/
theorem c10_counterexample :
    (calculateNextReview 0
      { phraseId := 0, easeFactor := 2.5, interval := 0, repetitions := 2,
        nextReview := 0, lastReview := none, totalReviews := 2,
        correctReviews := 2 } 4).interval = 0 ∧
    (calculateNextReview 0
      { phraseId := 0, easeFactor := 2.5, interval := 0, repetitions := 2,
        nextReview := 0, lastReview := none, totalReviews := 2,
        correctReviews := 2 } 4).nextReview = 0 := by
  norm_num [calculateNextReview, round_eq]

/-- C10 (amended): for every record satisfying the reachable-state
invariant `easeFactor ≥ 1.3` and `interval ≥ 1` whenever
`repetitions ≥ 2`, any review leaves `interval ≥ 1` and
`nextReview = now + interval·86400000 > now`, so a just-reviewed item is
never immediately due again; `interval = 0` survives only in a freshly
created record. -/
theorem c10_amended (now : ℤ) (p : ProgressRecord) (q : ℤ)
    (hef : (1.3 : ℚ) ≤ p.easeFactor) (hint : 2 ≤ p.repetitions → 1 ≤ p.interval) :
    1 ≤ (calculateNextReview now p q).interval ∧
    (calculateNextReview now p q).nextReview =
      now + (calculateNextReview now p q).interval * 86400000 ∧
    now < (calculateNextReview now p q).nextReview := by
  have hiv : 1 ≤ (calculateNextReview now p q).interval := by
    unfold calculateNextReview
    split
    · show 1 ≤ (if p.repetitions = 0 then 1
        else if p.repetitions = 1 then (6 : ℤ)
        else round ((p.interval : ℚ) * p.easeFactor))
      split
      · exact le_refl 1
      · split
        · norm_num
        · have h2 : 2 ≤ p.repetitions := by omega
          have h1 : (1 : ℚ) ≤ (p.interval : ℚ) := by
            exact_mod_cast hint h2
          have hprod : (1 / 2 : ℚ) ≤ (p.interval : ℚ) * p.easeFactor := by
            nlinarith
          rw [round_eq]
          rw [show (1 : ℤ) = ((1 : ℕ) : ℤ) from rfl]
          rw [Int.le_floor]
          push_cast
          linarith
    · exact le_refl 1
  have hoff := (c4_next_review_offset now p q).2
  refine ⟨hiv, hoff, ?_⟩
  rw [hoff]
  nlinarith [hiv]

theorem c10_amended_witness :
    ((1.3 : ℚ) ≤ (createInitialProgress 0).easeFactor ∧
      (2 ≤ (createInitialProgress 0).repetitions →
        1 ≤ (createInitialProgress 0).interval)) ∧
    (1 ≤ (calculateNextReview 5 (createInitialProgress 0) 0).interval ∧
    (calculateNextReview 5 (createInitialProgress 0) 0).nextReview =
      5 + (calculateNextReview 5 (createInitialProgress 0) 0).interval * 86400000 ∧
    (5 : ℤ) < (calculateNextReview 5 (createInitialProgress 0) 0).nextReview) :=
  ⟨⟨by norm_num [createInitialProgress], by intro h; simp [createInitialProgress] at h⟩,
    c10_amended 5 (createInitialProgress 0) 0
      (by norm_num [createInitialProgress])
      (by intro h; simp [createInitialProgress] at h)⟩

/-- The source's `reduce` over `minStep` returns the first record
achieving the minimal `nextReview`: it occurs in the list, every record
before it is strictly later, and every record is at least as early. -/
theorem foldl_minStep_spec (rest : List ProgressRecord) :
    ∀ p0 : ProgressRecord,
      ∃ pre post, p0 :: rest = pre ++ (rest.foldl minStep p0) :: post ∧
        (∀ x ∈ pre, (rest.foldl minStep p0).nextReview < x.nextReview) ∧
        (∀ x ∈ p0 :: rest, (rest.foldl minStep p0).nextReview ≤ x.nextReview) := by
  induction rest with
  | nil =>
      intro p0
      exact ⟨[], [], rfl, by simp, by simp⟩
  | cons p rest' ih =>
      intro p0
      by_cases hlt : p.nextReview < p0.nextReview
      · rw [List.foldl_cons, minStep, if_pos hlt]
        obtain ⟨pre', post', heq, hpre, hall⟩ := ih p
        refine ⟨p0 :: pre', post', by simpa using heq, ?_, ?_⟩
        · intro x hx
          rcases List.mem_cons.mp hx with rfl | hx'
          · exact lt_of_le_of_lt (hall p (List.mem_cons_self p rest')) hlt
          · exact hpre x hx'
        · intro x hx
          rcases List.mem_cons.mp hx with rfl | hx'
          · exact le_of_lt (lt_of_le_of_lt (hall p (List.mem_cons_self p rest')) hlt)
          · exact hall x hx'
      · rw [List.foldl_cons, minStep, if_neg hlt]
        push_neg at hlt
        obtain ⟨pre', post', heq, hpre, hall⟩ := ih p0
        cases pre' with
        | nil =>
            simp only [List.nil_append, List.cons.injEq] at heq
            obtain ⟨hm0, hpost⟩ := heq
            refine ⟨[], p :: rest', ?_, by simp, ?_⟩
            · simp [← hm0]
            · intro x hx
              rcases List.mem_cons.mp hx with rfl | hx'
              · exact hall x (List.mem_cons_self _ _)
              · rcases List.mem_cons.mp hx' with rfl | hx''
                · exact le_trans (hall p0 (List.mem_cons_self _ _)) hlt
                · exact hall x (List.mem_cons_of_mem _ hx'')
        | cons q pre'' =>
            simp only [List.cons_append, List.cons.injEq] at heq
            obtain ⟨hq, hrest⟩ := heq
            have hmin0 : (List.foldl minStep p0 rest').nextReview < p0.nextReview := by
              have := hpre q (List.mem_cons_self q pre'')
              rwa [← hq] at this
            refine ⟨p0 :: p :: pre'', post', ?_, ?_, ?_⟩
            · conv_lhs => rw [hrest]
              simp
            · intro x hx
              rcases List.mem_cons.mp hx with rfl | hx'
              · exact hmin0
              · rcases List.mem_cons.mp hx' with rfl | hx''
                · exact lt_of_lt_of_le hmin0 hlt
                · exact hpre x (List.mem_cons_of_mem _ hx'')
            · intro x hx
              rcases List.mem_cons.mp hx with rfl | hx'
              · exact hall x (List.mem_cons_self _ _)
              · rcases List.mem_cons.mp hx' with rfl | hx''
                · exact le_trans (le_of_lt hmin0) hlt
                · exact hall x (List.mem_cons_of_mem _ hx'')

/-- C6: when every progress record's phraseId occurs in the phrase
list, `getNextPhrase` returns (1) the phrase of an earliest-due record
among `nextReview ≤ now ∧ repetitions > 0` if that bucket is non-empty,
else (2) the first phrase in static order with no progress record, else
(3) the phrase of the first-encountered record with globally smallest
`nextReview`, and (4) none when there are no phrases at all. -/
theorem c6_get_next_phrase (phrases : List Phrase)
    (allProgress : List ProgressRecord) (now : ℤ)
    (H : ∀ r ∈ allProgress, ∃ ph ∈ phrases, ph.id = r.phraseId) :
    (dueRecords allProgress now ≠ [] →
      ∃ r ∈ dueRecords allProgress now,
        (∀ r' ∈ dueRecords allProgress now, r.nextReview ≤ r'.nextReview) ∧
        ∃ ph ∈ phrases, ph.id = r.phraseId ∧
          getNextPhrase phrases allProgress now = some ph) ∧
    (dueRecords allProgress now = [] →
      (∃ ph ∈ phrases, ph.id ∉ allProgress.map ProgressRecord.phraseId) →
      ∃ pre ph post, phrases = pre ++ ph :: post ∧
        ph.id ∉ allProgress.map ProgressRecord.phraseId ∧
        (∀ x ∈ pre, x.id ∈ allProgress.map ProgressRecord.phraseId) ∧
        getNextPhrase phrases allProgress now = some ph) ∧
    (dueRecords allProgress now = [] →
      (∀ ph ∈ phrases, ph.id ∈ allProgress.map ProgressRecord.phraseId) →
      allProgress ≠ [] →
      ∃ pre r post, allProgress = pre ++ r :: post ∧
        (∀ x ∈ pre, r.nextReview < x.nextReview) ∧
        (∀ x ∈ allProgress, r.nextReview ≤ x.nextReview) ∧
        ∃ ph ∈ phrases, ph.id = r.phraseId ∧
          getNextPhrase phrases allProgress now = some ph) ∧
    (phrases = [] → getNextPhrase phrases allProgress now = none) := by
  refine ⟨?_, ?_, ?_, ?_⟩
  · -- case 1: non-empty due bucket
    intro hne
    have hperm := List.mergeSort_perm (dueRecords allProgress now)
      (fun a b => decide (a.nextReview ≤ b.nextReview))
    have hsne : (dueRecords allProgress now).mergeSort
        (fun a b => decide (a.nextReview ≤ b.nextReview)) ≠ [] := by
      intro h0
      rw [h0] at hperm
      exact hne hperm.nil_eq.symm
    obtain ⟨d, t, hsort⟩ := List.exists_cons_of_ne_nil hsne
    have hdmem : d ∈ dueRecords allProgress now := by
      have hd : d ∈ (dueRecords allProgress now).mergeSort
          (fun a b => decide (a.nextReview ≤ b.nextReview)) := by
        rw [hsort]; exact List.mem_cons_self _ _
      exact List.mem_mergeSort.mp hd
    have hmin : ∀ r' ∈ dueRecords allProgress now, d.nextReview ≤ r'.nextReview := by
      have hs := @List.sorted_mergeSort ProgressRecord
        (fun a b : ProgressRecord => decide (a.nextReview ≤ b.nextReview))
        (fun a b c hab hbc => by
          simp only [decide_eq_true_eq] at *
          exact le_trans hab hbc)
        (fun a b => by
          simp only [Bool.or_eq_true, decide_eq_true_eq]
          exact le_total _ _)
        (dueRecords allProgress now)
      rw [hsort] at hs
      obtain ⟨hhead, -⟩ := List.pairwise_cons.mp hs
      intro r' hr'
      have hr'' : r' ∈ (dueRecords allProgress now).mergeSort
          (fun a b => decide (a.nextReview ≤ b.nextReview)) := List.mem_mergeSort.mpr hr'
      rw [hsort] at hr''
      rcases List.mem_cons.mp hr'' with rfl | hmem
      · exact le_refl _
      · simpa using hhead r' hmem
    have hdall : d ∈ allProgress := by
      unfold dueRecords at hdmem
      exact List.mem_of_mem_filter hdmem
    obtain ⟨ph, hphmem, hid⟩ := H d hdall
    have hsome : (phrases.find? fun ph => decide (ph.id = d.phraseId)).isSome :=
      List.find?_isSome.mpr ⟨ph, hphmem, by simp [hid]⟩
    obtain ⟨ph', hfind⟩ := Option.isSome_iff_exists.mp hsome
    have hid' : ph'.id = d.phraseId := by simpa using List.find?_some hfind
    have hmem' := List.mem_of_find?_eq_some hfind
    refine ⟨d, hdmem, hmin, ph', hmem', hid', ?_⟩
    unfold getNextPhrase
    simp only [hsort]
    exact hfind
  · -- case 2: no due record, some phrase has no record
    intro hdue hex
    obtain ⟨ph, hphmem, hnew⟩ := hex
    have hfilne : phrases.filter
        (fun ph => decide (ph.id ∉ allProgress.map ProgressRecord.phraseId)) ≠ [] := by
      intro h0
      have := List.filter_eq_nil_iff.mp h0 ph hphmem
      simp [hnew] at this
    obtain ⟨np, rest, hnp⟩ := List.exists_cons_of_ne_nil hfilne
    obtain ⟨l₁, l₂, hsplit, hpre, hpnp, -⟩ := List.filter_eq_cons_iff.mp hnp
    refine ⟨l₁, np, l₂, hsplit, by simpa using hpnp, ?_, ?_⟩
    · intro x hx
      have := hpre x hx
      simpa using this
    · unfold getNextPhrase
      rw [hdue]
      simp only [List.mergeSort_nil, hnp]
  · -- case 3: no due record, every phrase reviewed: globally soonest
    intro hdue hallids hne
    obtain ⟨p0, rest, hap⟩ := List.exists_cons_of_ne_nil hne
    have hfil : phrases.filter
        (fun ph => decide (ph.id ∉ allProgress.map ProgressRecord.phraseId)) = [] := by
      apply List.filter_eq_nil_iff.mpr
      intro a ha
      simpa using hallids a ha
    obtain ⟨pre, post, heq, hpre, hall⟩ := foldl_minStep_spec rest p0
    have hmmem : rest.foldl minStep p0 ∈ allProgress := by
      rw [hap, heq]
      exact List.mem_append_right _ (List.mem_cons_self _ _)
    obtain ⟨ph, hphmem, hid⟩ := H _ hmmem
    have hsome : (phrases.find? fun ph =>
        decide (ph.id = (rest.foldl minStep p0).phraseId)).isSome :=
      List.find?_isSome.mpr ⟨ph, hphmem, by simp [hid]⟩
    obtain ⟨ph', hfind⟩ := Option.isSome_iff_exists.mp hsome
    have hid' : ph'.id = (rest.foldl minStep p0).phraseId := by
      simpa using List.find?_some hfind
    have hmem' := List.mem_of_find?_eq_some hfind
    refine ⟨pre, rest.foldl minStep p0, post, by rw [hap]; exact heq, hpre,
      ?_, ph', hmem', hid', ?_⟩
    · intro x hx
      rw [hap] at hx
      exact hall x hx
    · unfold getNextPhrase
      rw [hdue]
      simp only [List.mergeSort_nil, hfil]
      rw [hap]
      exact hfind
  · -- case 4: no phrases at all
    intro hph
    subst hph
    unfold getNextPhrase
    rcases hms : (dueRecords allProgress now).mergeSort
        (fun a b => decide (a.nextReview ≤ b.nextReview)) with - | ⟨d, t⟩
    · simp only [hms, List.filter_nil]
      cases allProgress with
      | nil => rfl
      | cons p0 rest => rfl
    · simp only [hms]
      rfl

theorem c6_get_next_phrase_witness :
    (∀ r ∈ sampleProgress, ∃ ph ∈ samplePhrases, ph.id = r.phraseId) ∧
    ((dueRecords sampleProgress 100 ≠ [] →
      ∃ r ∈ dueRecords sampleProgress 100,
        (∀ r' ∈ dueRecords sampleProgress 100, r.nextReview ≤ r'.nextReview) ∧
        ∃ ph ∈ samplePhrases, ph.id = r.phraseId ∧
          getNextPhrase samplePhrases sampleProgress 100 = some ph) ∧
    (dueRecords sampleProgress 100 = [] →
      (∃ ph ∈ samplePhrases, ph.id ∉ sampleProgress.map ProgressRecord.phraseId) →
      ∃ pre ph post, samplePhrases = pre ++ ph :: post ∧
        ph.id ∉ sampleProgress.map ProgressRecord.phraseId ∧
        (∀ x ∈ pre, x.id ∈ sampleProgress.map ProgressRecord.phraseId) ∧
        getNextPhrase samplePhrases sampleProgress 100 = some ph) ∧
    (dueRecords sampleProgress 100 = [] →
      (∀ ph ∈ samplePhrases, ph.id ∈ sampleProgress.map ProgressRecord.phraseId) →
      sampleProgress ≠ [] →
      ∃ pre r post, sampleProgress = pre ++ r :: post ∧
        (∀ x ∈ pre, r.nextReview < x.nextReview) ∧
        (∀ x ∈ sampleProgress, r.nextReview ≤ x.nextReview) ∧
        ∃ ph ∈ samplePhrases, ph.id = r.phraseId ∧
          getNextPhrase samplePhrases sampleProgress 100 = some ph) ∧
    (samplePhrases = [] → getNextPhrase samplePhrases sampleProgress 100 = none)) :=
  ⟨by
    intro r hr
    simp only [sampleProgress, List.mem_singleton] at hr
    subst hr
    exact ⟨{ id := 1, text := [] }, by simp [samplePhrases], rfl⟩,
  c6_get_next_phrase samplePhrases sampleProgress 100 (by
    intro r hr
    simp only [sampleProgress, List.mem_singleton] at hr
    subst hr
    exact ⟨{ id := 1, text := [] }, by simp [samplePhrases], rfl⟩)⟩

end SpacedRepetition


namespace FuzzyMatcher

/-- C8 counterexample: `"?"` is a non-empty expected string, yet
`match("", "?")` normalizes both sides to the empty string, takes the
exact-match short-circuit and returns `matches = true`,
`similarity = 1`. -/
theorem c8_counterexample :
    («match» [] [Char.ofNat 63] {}).«matches» = true ∧
    («match» [] [Char.ofNat 63] {}).similarity = 1 := by
  exact ⟨rfl, show (1.0 : ℚ) = 1 by norm_num⟩

/-- C8 (amended): whenever the processed (normalized, accent-folded)
expected phrase is non-empty, `match("", expected)` with default options
returns `matches = false` and `similarity = 0`. -/
theorem c8_empty_answer (expected : List Char)
    (h : removeAccents (normalize expected) ≠ []) :
    («match» [] expected {}).«matches» = false ∧
    («match» [] expected {}).similarity = 0 := by
  have hpa : processed {} [] = [] := rfl
  have hpe : processed {} expected = removeAccents (normalize expected) := rfl
  unfold «match»
  rw [hpa, hpe, if_neg (fun heq => h heq.symm)]
  simp

theorem c8_empty_answer_witness :
    removeAccents (normalize [Char.ofNat 104, Char.ofNat 111, Char.ofNat 108,
      Char.ofNat 97]) ≠ [] ∧
    ((«match» [] [Char.ofNat 104, Char.ofNat 111, Char.ofNat 108,
      Char.ofNat 97] {}).«matches» = false ∧
    («match» [] [Char.ofNat 104, Char.ofNat 111, Char.ofNat 108,
      Char.ofNat 97] {}).similarity = 0) :=
  ⟨by decide, c8_empty_answer _ (by decide)⟩

end FuzzyMatcher

namespace FuzzyMatcher

/-- C7: when the processed answer and expected differ and the processed
answer is non-empty, `match` reports
`similarity = 1 - distance / maxLen` with `maxLen` the larger processed
length, and matches exactly when the distance is within the allowed
distance (the supplied `maxDistance`, else `⌊len(expected)/5⌋`) and the
similarity reaches `minSimilarity` (default `0.85`). -/
theorem c7_match_formula (answer expected : List Char) (options : MatchOptions)
    (hne : processed options answer ≠ processed options expected)
    (hnonempty : processed options answer ≠ []) :
    («match» answer expected options).similarity =
      1 - (levenshteinDistance (processed options answer)
            (processed options expected) : ℚ) /
        ((max (processed options answer).length
            (processed options expected).length : ℕ) : ℚ) ∧
    (∀ dmax : ℕ, options.maxDistance = some dmax →
      ((«match» answer expected options).«matches» = true ↔
        (levenshteinDistance (processed options answer)
            (processed options expected) ≤ dmax ∧
         options.minSimilarity ≤
          1 - (levenshteinDistance (processed options answer)
                (processed options expected) : ℚ) /
            ((max (processed options answer).length
                (processed options expected).length : ℕ) : ℚ)))) ∧
    (options.maxDistance = none →
      ((«match» answer expected options).«matches» = true ↔
        (levenshteinDistance (processed options answer)
            (processed options expected) ≤
          (processed options expected).length / 5 ∧
         options.minSimilarity ≤
          1 - (levenshteinDistance (processed options answer)
                (processed options expected) : ℚ) /
            ((max (processed options answer).length
                (processed options expected).length : ℕ) : ℚ)))) ∧
    ({} : MatchOptions).minSimilarity = 0.85 := by
  unfold «match»
  rw [if_neg hne, if_neg (by simpa [List.length_eq_zero] using hnonempty)]
  refine ⟨rfl, ?_, ?_, rfl⟩
  · intro dmax hd
    rw [hd]
    simp only [Bool.and_eq_true, decide_eq_true_eq]
  · intro hd
    rw [hd]
    simp only [Bool.and_eq_true, decide_eq_true_eq]

end FuzzyMatcher

namespace FuzzyMatcher

theorem c7_match_formula_witness :
    (processed {} [Char.ofNat 103, Char.ofNat 114, Char.ofNat 97, Char.ofNat 99,
        Char.ofNat 105, Char.ofNat 97, Char.ofNat 115] ≠
      processed {} [Char.ofNat 103, Char.ofNat 114, Char.ofNat 97, Char.ofNat 99,
        Char.ofNat 105, Char.ofNat 97] ∧
     processed {} [Char.ofNat 103, Char.ofNat 114, Char.ofNat 97, Char.ofNat 99,
        Char.ofNat 105, Char.ofNat 97, Char.ofNat 115] ≠ []) ∧
    («match» [Char.ofNat 103, Char.ofNat 114, Char.ofNat 97, Char.ofNat 99,
        Char.ofNat 105, Char.ofNat 97, Char.ofNat 115]
      [Char.ofNat 103, Char.ofNat 114, Char.ofNat 97, Char.ofNat 99,
        Char.ofNat 105, Char.ofNat 97] {}).similarity =
      1 - (levenshteinDistance
            (processed {} [Char.ofNat 103, Char.ofNat 114, Char.ofNat 97,
              Char.ofNat 99, Char.ofNat 105, Char.ofNat 97, Char.ofNat 115])
            (processed {} [Char.ofNat 103, Char.ofNat 114, Char.ofNat 97,
              Char.ofNat 99, Char.ofNat 105, Char.ofNat 97]) : ℚ) /
        ((max (processed {} [Char.ofNat 103, Char.ofNat 114, Char.ofNat 97,
              Char.ofNat 99, Char.ofNat 105, Char.ofNat 97, Char.ofNat 115]).length
            (processed {} [Char.ofNat 103, Char.ofNat 114, Char.ofNat 97,
              Char.ofNat 99, Char.ofNat 105, Char.ofNat 97]).length : ℕ) : ℚ) :=
  ⟨⟨by decide, by decide⟩,
    (c7_match_formula _ _ {} (by decide) (by decide)).1⟩

end FuzzyMatcher

namespace FuzzyMatcher

theorem toNat_ofNat_of_valid {n : ℕ} (h : Nat.isValidChar n) :
    (Char.ofNat n).toNat = n := by
  rw [Char.ofNat, dif_pos h]
  simp [Char.ofNatAux, Char.toNat, UInt32.toNat]

/-- `jsToLower` is idempotent: lowered characters land outside both
uppercase ranges. -/
theorem jsToLower_idem (c : Char) : jsToLower (jsToLower c) = jsToLower c := by
  unfold jsToLower
  split
  · rename_i h1
    have hv : Nat.isValidChar (c.toNat + 32) := Or.inl (by omega)
    rw [if_neg (by rw [toNat_ofNat_of_valid hv]; omega),
        if_neg (by rw [toNat_ofNat_of_valid hv]; omega)]
  · split
    · rename_i h1 h2
      have hv : Nat.isValidChar (c.toNat + 32) := Or.inl (by omega)
      rw [if_neg (by rw [toNat_ofNat_of_valid hv]; omega),
          if_neg (by rw [toNat_ofNat_of_valid hv]; omega)]
    · rename_i h1 h2
      rfl

/-- Heads surviving a `dropWhile` fail the predicate. -/
theorem head?_dropWhile {α : Type} (p : α → Bool) (l : List α) :
    ∀ c, (l.dropWhile p).head? = some c → p c = false := by
  induction l with
  | nil => intro c hc; simp at hc
  | cons a t ih =>
      intro c hc
      by_cases hp : p a
      · rw [List.dropWhile_cons_of_pos hp] at hc
        exact ih c hc
      · rw [List.dropWhile_cons_of_neg hp] at hc
        simp only [List.head?_cons, Option.some.injEq] at hc
        subst hc
        simpa using hp

theorem dropWhile_eq_self_of_head {α : Type} {p : α → Bool} (l : List α)
    (h : ∀ c, l.head? = some c → p c = false) : l.dropWhile p = l := by
  cases l with
  | nil => rfl
  | cons a t =>
      rw [List.dropWhile_cons_of_neg]
      simp [h a rfl]

/-- The first character of a trimmed string is not whitespace. -/
theorem trim_head (l : List Char) :
    ∀ c, (trim l).head? = some c → isWS c = false := by
  intro c hc
  unfold trim at hc
  rw [List.head?_reverse] at hc
  rcases hw : ((l.dropWhile isWS).reverse.dropWhile isWS) with - | ⟨a, t⟩
  · rw [hw] at hc; simp at hc
  · obtain ⟨u, hu⟩ := List.dropWhile_suffix (l := (l.dropWhile isWS).reverse) isWS
    have hne : (l.dropWhile isWS).reverse.dropWhile isWS ≠ [] := by rw [hw]; simp
    have hlast : ((l.dropWhile isWS).reverse).getLast? = some c := by
      rw [← hu, List.getLast?_append_of_ne_nil _ hne]
      exact hc
    rw [List.getLast?_reverse] at hlast
    exact head?_dropWhile isWS l c hlast

/-- The last character of a trimmed string is not whitespace. -/
theorem trim_last (l : List Char) :
    ∀ c, (trim l).reverse.head? = some c → isWS c = false := by
  intro c hc
  unfold trim at hc
  rw [List.reverse_reverse] at hc
  exact head?_dropWhile isWS _ c hc

/-- `trim` leaves a string with no whitespace at either end unchanged. -/
theorem trim_eq_self (l : List Char)
    (h1 : ∀ c, l.head? = some c → isWS c = false)
    (h2 : ∀ c, l.reverse.head? = some c → isWS c = false) : trim l = l := by
  unfold trim
  rw [dropWhile_eq_self_of_head l h1, dropWhile_eq_self_of_head l.reverse h2,
    List.reverse_reverse]

/-- `trim` returns a contiguous slice of its input. -/
theorem trim_slice (l : List Char) : trim l <:+: l := by
  unfold trim
  have h1 : ((l.dropWhile isWS).reverse.dropWhile isWS).reverse <+:
      ((l.dropWhile isWS).reverse).reverse :=
    List.reverse_prefix.mpr (List.dropWhile_suffix _)
  rw [List.reverse_reverse] at h1
  exact h1.isInfix.trans (List.dropWhile_suffix _).isInfix

theorem mem_trim {c : Char} {l : List Char} (h : c ∈ trim l) : c ∈ l :=
  List.IsInfix.subset (trim_slice l) h

end FuzzyMatcher

namespace FuzzyMatcher

/-- Characters of a collapsed string: the inserted space, or an input
character that was not whitespace. -/
theorem mem_collapseWS {c : Char} :
    ∀ (b : Bool) (l : List Char), c ∈ collapseWS b l →
      c = spaceChar ∨ (c ∈ l ∧ isWS c = false) := by
  intro b l
  induction l generalizing b with
  | nil => intro h; simp [collapseWS] at h
  | cons a t ih =>
      intro h
      simp only [collapseWS] at h
      by_cases hws : isWS a
      · rw [if_pos hws] at h
        cases b with
        | true =>
            rcases ih true h with h1 | ⟨h2, h3⟩
            · exact Or.inl h1
            · exact Or.inr ⟨List.mem_cons_of_mem _ h2, h3⟩
        | false =>
            rw [if_neg (by simp)] at h
            rcases List.mem_cons.mp h with rfl | h'
            · exact Or.inl rfl
            · rcases ih true h' with h1 | ⟨h2, h3⟩
              · exact Or.inl h1
              · exact Or.inr ⟨List.mem_cons_of_mem _ h2, h3⟩
      · rw [if_neg hws] at h
        rcases List.mem_cons.mp h with rfl | h'
        · exact Or.inr ⟨List.mem_cons_self _ _, by simpa using hws⟩
        · rcases ih false h' with h1 | ⟨h2, h3⟩
          · exact Or.inl h1
          · exact Or.inr ⟨List.mem_cons_of_mem _ h2, h3⟩

/-- A collapse that starts inside a whitespace run emits a
non-whitespace character first. -/
theorem head?_collapseWS_true (l : List Char) :
    ∀ c, (collapseWS true l).head? = some c → isWS c = false := by
  induction l with
  | nil => intro c hc; simp [collapseWS] at hc
  | cons a t ih =>
      intro c hc
      simp only [collapseWS] at hc
      by_cases hws : isWS a
      · rw [if_pos hws, if_pos trivial] at hc
        exact ih c hc
      · rw [if_neg hws] at hc
        simp only [List.head?_cons, Option.some.injEq] at hc
        subst hc
        simpa using hws

/-- No two adjacent whitespace characters survive a collapse. -/
theorem chain'_collapseWS :
    ∀ (b : Bool) (l : List Char),
      (collapseWS b l).Chain' fun x y => isWS x = true → isWS y = false := by
  intro b l
  induction l generalizing b with
  | nil => simp [collapseWS]
  | cons a t ih =>
      simp only [collapseWS]
      by_cases hws : isWS a
      · rw [if_pos hws]
        cases b with
        | true =>
            rw [if_pos rfl]
            exact ih true
        | false =>
            rw [if_neg (by simp)]
            refine List.chain'_cons'.mpr ⟨?_, ih true⟩
            intro y hy _
            exact head?_collapseWS_true t y hy
      · rw [if_neg hws]
        refine List.chain'_cons'.mpr ⟨?_, ih false⟩
        intro y hy h'
        exact absurd h' hws

/-- When the string does not start with whitespace, the run-state flag
makes no difference. -/
theorem collapseWS_true_eq_false (l : List Char)
    (h : ∀ c, l.head? = some c → isWS c = false) :
    collapseWS true l = collapseWS false l := by
  cases l with
  | nil => rfl
  | cons a t =>
      have := h a rfl
      simp only [collapseWS]
      rw [if_neg (by simp [this]), if_neg (by simp [this])]

/-- A string whose whitespace is single spaces separated by
non-whitespace is a fixpoint of the collapse. -/
theorem collapseWS_eq_self (l : List Char)
    (hsp : ∀ c ∈ l, isWS c = true → c = spaceChar)
    (hch : l.Chain' fun x y => isWS x = true → isWS y = false) :
    collapseWS false l = l := by
  induction l with
  | nil => rfl
  | cons a t ih =>
      obtain ⟨hhead, htail⟩ := List.chain'_cons'.mp hch
      simp only [collapseWS]
      by_cases hws : isWS a
      · rw [if_pos hws, if_neg (by simp)]
        have ha : a = spaceChar := hsp a (List.mem_cons_self _ _) hws
        have hth : ∀ c, t.head? = some c → isWS c = false := by
          intro c hc
          exact hhead c hc hws
        rw [collapseWS_true_eq_false t hth,
          ih (fun c hc hw => hsp c (List.mem_cons_of_mem _ hc) hw) htail, ha]
      · rw [if_neg hws,
          ih (fun c hc hw => hsp c (List.mem_cons_of_mem _ hc) hw) htail]

end FuzzyMatcher

namespace FuzzyMatcher

/-- Every character of a normalized string is lowercase-fixed,
non-punctuation, and whitespace only as the single space. -/
theorem normalize_chars {c : Char} {s : List Char} (h : c ∈ normalize s) :
    jsToLower c = c ∧ isPunct c = false ∧ (isWS c = true → c = spaceChar) := by
  unfold normalize at h
  have h1 := mem_trim h
  rcases mem_collapseWS false _ h1 with rfl | ⟨h2, hws⟩
  · exact ⟨rfl, rfl, fun _ => rfl⟩
  · obtain ⟨h3, hp⟩ := List.mem_filter.mp h2
    have h4 := mem_trim h3
    obtain ⟨c0, -, rfl⟩ := List.mem_map.mp h4
    exact ⟨jsToLower_idem c0, by simpa using hp,
      fun hw => absurd hw (by simp [hws])⟩

/-- A string already in normal form is a fixpoint of `normalize`. -/
theorem normalize_fixpoint (m : List Char)
    (hchars : ∀ c ∈ m,
      jsToLower c = c ∧ isPunct c = false ∧ (isWS c = true → c = spaceChar))
    (hhead : ∀ c, m.head? = some c → isWS c = false)
    (hlast : ∀ c, m.reverse.head? = some c → isWS c = false)
    (hchain : m.Chain' fun x y => isWS x = true → isWS y = false) :
    normalize m = m := by
  have hmap : m.map jsToLower = m := by
    calc m.map jsToLower = m.map id :=
          List.map_congr_left fun a ha => (hchars a ha).1
      _ = m := List.map_id m
  have htrimm : trim m = m := trim_eq_self m hhead hlast
  have hfil : List.filter (fun c => !(isPunct c)) m = m :=
    List.filter_eq_self.mpr fun a ha => by simp [(hchars a ha).2.1]
  have hcol : collapseWS false m = m :=
    collapseWS_eq_self m (fun c hc => (hchars c hc).2.2) hchain
  unfold normalize
  rw [hmap, htrimm, hfil, hcol, htrimm]

/-- C9: `normalize` is idempotent. -/
theorem c9_normalize_idempotent (s : List Char) :
    normalize (normalize s) = normalize s := by
  have hX : normalize s =
      trim (collapseWS false (List.filter (fun c => !(isPunct c))
        (trim (s.map jsToLower)))) := rfl
  apply normalize_fixpoint
  · intro c hc
    exact normalize_chars hc
  · intro c hc
    rw [hX] at hc
    exact trim_head _ c hc
  · intro c hc
    rw [hX] at hc
    exact trim_last _ c hc
  · rw [hX]
    exact List.Chain'.infix (chain'_collapseWS false _) (trim_slice _)

end FuzzyMatcher
